import Mathlib

/-!
Verification of the dollar-cost-average calculator (`src/routes/calcs.dca`):
the purchase-list store, the keystroke sanitizer, the zod row validator,
the totals aggregator and the summary-panel formatting.

JavaScript numbers are embedded as `JSNum`: `NaN`, signed infinity, or a
finite value carried as an exact rational.  The arithmetic identities of
the aggregator are proved over exact operations (no rounding); a second,
overflow-aware layer (`totalsOfD`, `toFixedD`, the `D`-suffixed display
functions) additionally models the IEEE-double overflow to `±Infinity` and
the large-magnitude fallback of `Number.prototype.toFixed`, which the
summary-panel claims depend on.  Strings are embedded as `String` /
`List Char`.
-/

namespace Dca

/-- A JavaScript number: `NaN`, `±Infinity`, or a finite value (exact `ℚ`). -/
inductive JSNum where
  | nan : JSNum
  | inf (pos : Bool) : JSNum
  | fin (q : ℚ) : JSNum
  deriving DecidableEq

namespace JSNum

/-- JS `Number.isNaN`. -/
def isNaN : JSNum → Bool
  | nan => true
  | _ => false

/-- JS `Number.isFinite`. -/
def isFinite : JSNum → Bool
  | fin _ => true
  | _ => false

/-- JS comparison `n >= 0` (false on `NaN` and `-Infinity`). -/
def ge0 : JSNum → Bool
  | nan => false
  | inf b => b
  | fin q => decide (0 ≤ q)

/-- JS unary negation. -/
def negJS : JSNum → JSNum
  | nan => nan
  | inf b => inf (!b)
  | fin q => fin (-q)

/-- JS multiplication on the `JSNum` model: `NaN` is absorbing,
`Infinity * 0 = NaN`, infinities multiply by sign, finite values exactly. -/
def mul : JSNum → JSNum → JSNum
  | nan, _ => nan
  | _, nan => nan
  | inf b, inf c => inf (b = c)
  | inf b, fin q => if q = 0 then nan else inf (b = decide (0 < q))
  | fin q, inf b => if q = 0 then nan else inf (b = decide (0 < q))
  | fin a, fin b => fin (a * b)

end JSNum

/-- Finite numeric value used by the aggregator: `Number.isFinite(n) ? n : 0`. -/
def finiteOr0 : JSNum → ℚ
  | .fin q => q
  | _ => 0

/-! ## The JS `Number(string)` conversion

Model of ECMAScript ToNumber on strings: trim whitespace, empty → 0,
optional sign, `Infinity`, decimal literal with optional fraction and
exponent; unsigned `0x`/`0o`/`0b` integer literals; anything else → `NaN`. -/

/-- Whitespace for JS string trimming, modelled by `Char.isWhitespace`. -/
def jsWS (c : Char) : Bool := c.isWhitespace

/-- JS `String.prototype.trim` on character lists. -/
def jsTrimL (l : List Char) : List Char :=
  ((l.dropWhile jsWS).reverse.dropWhile jsWS).reverse

/-- Value of a decimal digit character. -/
def digitVal (c : Char) : Nat := c.toNat - 48

/-- Value of a list of decimal digits. -/
def decValue (l : List Char) : Nat := l.foldl (fun a c => 10 * a + digitVal c) 0

/-- Hexadecimal digit test. -/
def hexDigit (c : Char) : Bool :=
  c.isDigit || ('a' ≤ c && c ≤ 'f') || ('A' ≤ c && c ≤ 'F')

/-- Octal digit test. -/
def octDigit (c : Char) : Bool := '0' ≤ c && c ≤ '7'

/-- Binary digit test. -/
def binDigit (c : Char) : Bool := c = '0' || c = '1'

/-- Value of a hexadecimal digit character. -/
def hexVal (c : Char) : Nat :=
  if c.isDigit then digitVal c
  else if 'a' ≤ c && c ≤ 'f' then c.toNat - 87
  else c.toNat - 55

/-- Value of a digit list in base `b`. -/
def radixValue (b : Nat) (l : List Char) : Nat :=
  l.foldl (fun a c => b * a + hexVal c) 0

/-- Symbolic result of recognizing a JS numeric literal, before any rational
arithmetic: `NaN`, `Infinity`, a radix integer, or a decimal with integer
part, fraction digits value, fraction length and exponent. -/
inductive RawNum where
  | nan : RawNum
  | infty : RawNum
  | intv (n : Nat) : RawNum
  | dec (ip fp flen : Nat) (exp : Int) : RawNum
  deriving DecidableEq

/-- Numeric value of a recognized literal. -/
def RawNum.val : RawNum → JSNum
  | .nan => .nan
  | .infty => .inf true
  | .intv n => .fin ((n : ℚ))
  | .dec ip fp flen e => .fin (((ip : ℚ) + (fp : ℚ) / (10 : ℚ) ^ flen) * (10 : ℚ) ^ e)

/-- Mantissa of a JS decimal literal — `digits`, `digits.digits?` or
`.digits` — as (integer part, fraction value, fraction length). -/
def parseMantissaR (m : List Char) : Option (Nat × Nat × Nat) :=
  let ip := m.takeWhile Char.isDigit
  match m.dropWhile Char.isDigit with
  | [] => if ip.isEmpty then none else some (decValue ip, 0, 0)
  | '.' :: fp =>
      if fp.all Char.isDigit && !(ip.isEmpty && fp.isEmpty) then
        some (decValue ip, decValue fp, fp.length)
      else none
  | _ => none

/-- Exponent part of a JS decimal literal (the characters after `e`/`E`). -/
def parseExp : List Char → Option Int
  | '+' :: ds => if !ds.isEmpty && ds.all Char.isDigit then some ((decValue ds : Int)) else none
  | '-' :: ds => if !ds.isEmpty && ds.all Char.isDigit then some (-(decValue ds : Int)) else none
  | ds => if !ds.isEmpty && ds.all Char.isDigit then some ((decValue ds : Int)) else none

/-- Exponent marker test. -/
def isExpChar (c : Char) : Bool := c = 'e' || c = 'E'

/-- JS decimal literal: mantissa optionally followed by an exponent. -/
def parseDecR (l : List Char) : RawNum :=
  let m := l.takeWhile (fun c => !isExpChar c)
  match l.dropWhile (fun c => !isExpChar c) with
  | [] =>
      match parseMantissaR m with
      | some (a, b, c) => .dec a b c 0
      | none => .nan
  | _ :: es =>
      match parseMantissaR m, parseExp es with
      | some (a, b, c), some k => .dec a b c k
      | _, _ => .nan

/-- Detects a `0x`/`0o`/`0b` radix marker, returning the base. -/
def radixKind (t : List Char) : Option Nat :=
  match t with
  | c0 :: c1 :: _ =>
      if c0 = '0' then
        if c1 = 'x' ∨ c1 = 'X' then some 16
        else if c1 = 'o' ∨ c1 = 'O' then some 8
        else if c1 = 'b' ∨ c1 = 'B' then some 2
        else none
      else none
  | _ => none

/-- Digit predicate for a radix literal base. -/
def radixDigit (b : Nat) (c : Char) : Bool :=
  if b = 16 then hexDigit c else if b = 8 then octDigit c else binDigit c

/-- The characters of the literal `Infinity`. -/
def infinityL : List Char := ['I', 'n', 'f', 'i', 'n', 'i', 't', 'y']

/-- Body of a JS numeric string after sign handling; radix literals are only
allowed in the unsigned position. -/
def parseBodyR (allowRadix : Bool) (t : List Char) : RawNum :=
  if t = infinityL then .infty
  else
    match (if allowRadix then radixKind t else none) with
    | some b =>
        if !(t.drop 2).isEmpty && (t.drop 2).all (radixDigit b) then
          .intv (radixValue b (t.drop 2))
        else .nan
    | none => parseDecR t

/-- Sign and body of a JS numeric string (symbolic part of `Number`). -/
def rawNumberL (l : List Char) : Bool × RawNum :=
  let t := jsTrimL l
  if t = [] then (true, .intv 0)
  else if t.head? = some '+' then (true, parseBodyR false t.tail)
  else if t.head? = some '-' then (false, parseBodyR false t.tail)
  else (true, parseBodyR true t)

/-- JS `Number(string)` on character lists. -/
def jsNumberL (l : List Char) : JSNum :=
  if (rawNumberL l).1 then (rawNumberL l).2.val else (rawNumberL l).2.val.negJS

/-- JS `Number(string)`. -/
def jsNumber (s : String) : JSNum := jsNumberL s.toList

/-! ## Data model and purchase store

`Purchase` mirrors `type Purchase = { id: string; units: number | string;
price: number | string }`; `PartialPurchase` mirrors `Partial<Purchase>`.
Ids are generated from `Date.now()`/`Math.random()`; that nondeterministic
generation is modelled by passing the generated id as an argument. -/

/-- A field value: `number | string`. -/
inductive JSVal where
  | num (n : JSNum) : JSVal
  | str (s : String) : JSVal
  deriving DecidableEq

/-- One purchase row of the store. -/
structure Purchase where
  id : String
  units : JSVal
  price : JSVal
  deriving DecidableEq

/-- `Partial<Purchase>`: any subset of the fields may be provided. -/
structure PartialPurchase where
  id : Option String
  units : Option JSVal
  price : Option JSVal
  deriving DecidableEq

/-- JS object spread `{ ...p, ...fields }`. -/
def spreadFields (p : Purchase) (f : PartialPurchase) : Purchase :=
  ⟨f.id.getD p.id, f.units.getD p.units, f.price.getD p.price⟩

/-- Initial store state: one entry with empty `units`/`price`; the generated
id is passed in. -/
def initState (id0 : String) : List Purchase :=
  [⟨id0, .str "", .str ""⟩]

/-- `addPurchase`: append a new entry with empty fields; the generated id is
passed in. -/
def addPurchase (id : String) (s : List Purchase) : List Purchase :=
  s ++ [⟨id, .str "", .str ""⟩]

/-- `updatePurchase(id, fields)`: map `p.id === id ? { ...p, ...fields } : p`. -/
def updatePurchase (id : String) (f : PartialPurchase) (s : List Purchase) :
    List Purchase :=
  s.map (fun p => if p.id = id then spreadFields p f else p)

/-- `removePurchase(id)`: keep the entries whose id differs. -/
def removePurchase (id : String) (s : List Purchase) : List Purchase :=
  s.filter (fun p => p.id != id)

/-- `resetPurchases`: empty list. -/
def resetPurchases : List Purchase := []

/-! ## The zod row schema

Each field is transformed by
`typeof v === "string" && v.trim() === "" ? 0 : Number(v)` and then refined
by `!Number.isNaN(n) && n >= 0`. -/

/-- The zod transform of a field value. -/
def coerceField : JSVal → JSNum
  | .num n => n
  | .str s => if jsTrimL s.toList = [] then .fin 0 else jsNumberL s.toList

/-- The zod refinement `!Number.isNaN(n) && n >= 0`. -/
def refineOk (n : JSNum) : Bool := !n.isNaN && n.ge0

/-- Error message for the units field. -/
def unitsMessage : String := "Units must be a non-negative number"

/-- Error message for the price field. -/
def priceMessage : String := "Price must be a non-negative number"

/-- Issues produced by `RowSchema.safeParse` on a row, as (path, message)
pairs; the parse succeeds exactly when this list is empty. -/
def rowSchemaIssues (units price : JSVal) : List (String × String) :=
  (if refineOk (coerceField units) then [] else [("units", unitsMessage)])
    ++ (if refineOk (coerceField price) then [] else [("price", priceMessage)])

/-- Validation of a single field by its part of the schema: `none` on
success, the message on failure. -/
def validateField (msg : String) (v : JSVal) : Option String :=
  if refineOk (coerceField v) then none else some msg

/-! ## The row editor: sanitizer and change handler -/

/-- Digit-or-dot test: the characters kept by `v.replace(/[^\d.]/g, "")`. -/
def isDigitOrDot (c : Char) : Bool := c.isDigit || c = '.'

/-- Step 1 of the sanitizer: remove non-digit, non-dot characters. -/
def stripL (v : List Char) : List Char := v.filter isDigitOrDot

/-- Step 2 of the sanitizer: `intPart + "." + rest.join("")` after
`s.split(".")`, applied only when a dot is present. -/
def collapseDots (s : List Char) : List Char :=
  if '.' ∈ s then
    s.takeWhile (fun c => c != '.')
      ++ '.' :: ((s.dropWhile (fun c => c != '.')).tail.filter (fun c => c != '.'))
  else s

/-- Step 3 of the sanitizer: prepend `0` when the result starts with a dot. -/
def prependZero (s : List Char) : List Char :=
  if s.head? = some '.' then '0' :: s else s

/-- `sanitizeNumericInput` from the row editor. -/
def sanitizeNumericInput (v : List Char) : List Char :=
  prependZero (collapseDots (stripL v))

/-- The cleaned value of a keystroke:
`value.trim() === "" ? "" : sanitizeNumericInput(value)`. -/
def cleanL (v : List Char) : List Char :=
  if jsTrimL v = [] then [] else sanitizeNumericInput v

/-- String form of `cleanL`. -/
def cleanStr (v : String) : String := String.mk (cleanL v.toList)

/-- The edited field. -/
inductive Field where
  | units : Field
  | price : Field
  deriving DecidableEq

/-- Path name of a field in a zod issue. -/
def Field.name : Field → String
  | .units => "units"
  | .price => "price"

/-- The store fields passed to `onChange(row.id, { [field]: clean })`. -/
def fieldAssign (field : Field) (v : JSVal) : PartialPurchase :=
  match field with
  | .units => ⟨none, some v, none⟩
  | .price => ⟨none, none, some v⟩

/-- Result of `handleChange`: the new inline error for the edited field
(`none` clears it) and the fields persisted to the store. -/
structure HandleResult where
  errorUpdate : Option String
  storeFields : PartialPurchase
  deriving DecidableEq

/-- The row editor's `handleChange(field, value)`: sanitize, validate the row
with the edited field replaced by the cleaned value, set or clear the inline
error for the edited field, and persist the cleaned value. -/
def handleChange (row : Purchase) (field : Field) (value : String) :
    HandleResult :=
  let clean := cleanStr value
  let u := if field = .units then JSVal.str clean else row.units
  let pr := if field = .price then JSVal.str clean else row.price
  let issues := rowSchemaIssues u pr
  let err :=
    if issues.isEmpty then none
    else ((issues.find? (fun i => i.1 = field.name)).map (fun i => i.2))
  let persisted := if clean = "" then JSVal.str "" else JSVal.str clean
  ⟨err, fieldAssign field persisted⟩

/-! ## The aggregator and the summary panel -/

/-- Numeric form of a stored field in the aggregator:
`typeof x === "number" ? x : Number(x || 0)`. -/
def numericJS : JSVal → JSNum
  | .num n => n
  | .str s => if s = "" then .fin 0 else jsNumber s

/-- The aggregates derived from the purchase list. -/
structure Totals where
  totalUnits : ℚ
  avgPrice : ℚ
  totalAmount : ℚ
  deriving DecidableEq

/-- The `totals` memo: coerce each row to finite numbers (non-finite → 0),
take per-row amounts, and fold sums; `avgPrice` guards on `totalUnits > 0`. -/
def totalsOf (l : List Purchase) : Totals :=
  let parsed := l.map (fun p =>
    let units := numericJS p.units
    let price := numericJS p.price
    (finiteOr0 units, finiteOr0 price, finiteOr0 units * finiteOr0 price))
  let totalUnits : ℚ := parsed.foldl (fun s p => s + p.1) 0
  let totalAmount : ℚ := parsed.foldl (fun s p => s + p.2.2) 0
  let avgPrice := if 0 < totalUnits then totalAmount / totalUnits else 0
  ⟨totalUnits, avgPrice, totalAmount⟩

/-! ## Summary panel formatting

`Number.prototype.toFixed` modelled on exact rationals, for `d ≥ 1` digits:
sign of the value, then the magnitude rounded to `d` decimals, half away
from zero, exactly as the ECMAScript algorithm chooses its integer `n`. -/

/-- Decimal digit character of a value below ten. -/
def digitChar (n : Nat) : Char := Char.ofNat (48 + n)

/-- Fueled decimal rendering of a natural number. -/
def natDecimalGo : Nat → Nat → List Char
  | 0, _ => []
  | fuel + 1, n =>
      if n < 10 then [digitChar n]
      else natDecimalGo fuel (n / 10) ++ [digitChar (n % 10)]

/-- Decimal rendering of a natural number. -/
def natDecimal (n : Nat) : List Char := natDecimalGo (n + 1) n

/-- The `d` decimal digits of `fp < 10 ^ d`, most significant first. -/
def fracDigits (d : Nat) (fp : Nat) : List Char :=
  (List.range d).reverse.map (fun i => digitChar (fp / 10 ^ i % 10))

/-- `q.toFixed(d)` for `d ≥ 1` on the exact-rational model, valid for
magnitudes below `10^21`; the `Number::toString` fallback that real
`toFixed` takes for larger or non-finite values lives in `toFixedD`. -/
def toFixedL (d : Nat) (q : ℚ) : List Char :=
  let n : Nat := (Int.floor (|q| * (10 : ℚ) ^ d + 1 / 2)).toNat
  (if q < 0 then ['-'] else [])
    ++ natDecimal (n / 10 ^ d) ++ '.' :: fracDigits d (n % 10 ^ d)

/-- Summary panel: `$` then `avgPrice.toFixed(4)`, or `0.0000` when the
aggregate is falsy. -/
def displayAvgPrice (q : ℚ) : String :=
  String.mk ('$' :: (if q = 0 then ['0', '.', '0', '0', '0', '0'] else toFixedL 4 q))

/-- Summary panel: `$` then `totalAmount.toFixed(2)`, or `0.00` when the
aggregate is falsy. -/
def displayTotalAmount (q : ℚ) : String :=
  String.mk ('$' :: (if q = 0 then ['0', '.', '0', '0'] else toFixedL 2 q))

/-! ## Operation sequences on the store -/

/-- A store operation; generated ids are passed to `add` explicitly. -/
inductive Op where
  | add (id : String) : Op
  | update (id : String) (f : PartialPurchase) : Op
  | remove (id : String) : Op
  | reset : Op
  deriving DecidableEq

/-- Apply one operation to the store. -/
def applyOp (s : List Purchase) : Op → List Purchase
  | .add id => addPurchase id s
  | .update id f => updatePurchase id f s
  | .remove id => removePurchase id s
  | .reset => resetPurchases

/-- Run a sequence of operations. -/
def runOps (s : List Purchase) : List Op → List Purchase
  | [] => s
  | op :: rest => runOps (applyOp s op) rest

/-- Side conditions of a well-behaved run: every `add` uses an id that is not
already in the list (the generator's freshness) and no `update` supplies the
`id` field (as the editor's calls never do). -/
def okOp (s : List Purchase) : Op → Bool
  | .add id => !((s.map Purchase.id).contains id)
  | .update _ f => f.id.isNone
  | _ => true

/-- The side conditions checked along a whole run. -/
def okOps (s : List Purchase) : List Op → Bool
  | [] => true
  | op :: rest => okOp s op && okOps (applyOp s op) rest

/-! ## Specification-side formulations

These definitions follow the words of the specification; the theorems below
compare them with the code-derived definitions above. -/

/-- Modelled from the spec: keep the first dot and remove all subsequent
dots, in one pass with a seen-a-dot flag. -/
def dropExtraDots : List Char → Bool → List Char
  | [], _ => []
  | c :: cs, seen =>
      if c = '.' then
        (if seen then dropExtraDots cs seen else c :: dropExtraDots cs true)
      else c :: dropExtraDots cs seen

/-- The spec's per-row amount: numeric units times numeric price, non-finite
treated as 0. -/
def specRowAmount (p : Purchase) : ℚ :=
  finiteOr0 ((numericJS p.units).mul (numericJS p.price))

/-- The spec's `totalUnits`: the sum of the numeric units, non-finite → 0. -/
def specTotalUnits (l : List Purchase) : ℚ :=
  (l.map (fun p => finiteOr0 (numericJS p.units))).sum

/-- The spec's `totalAmount`: the sum of the per-row amounts. -/
def specTotalAmount (l : List Purchase) : ℚ :=
  (l.map specRowAmount).sum

/-- The aggregation example of the spec:
`[{units:10, price:50}, {units:5, price:40}]`. -/
def examplePurchases : List Purchase :=
  [⟨"1", .num (.fin 10), .num (.fin 50)⟩, ⟨"2", .num (.fin 5), .num (.fin 40)⟩]

/-! ## Double-overflow refinement for the summary panel

The exact-rational embedding above proves the arithmetic identities of the
memo; IEEE doubles, however, overflow: a product or sum of finite values
whose exact magnitude reaches the double range becomes `Infinity` even
though both factors pass the `Number.isFinite` checks at lines 240-241.
This section re-embeds the same memo and summary panel with that overflow
modelled: values are exact rationals between operations, every arithmetic
result and every parsed number is clamped to `±Infinity` at the double
overflow threshold, and `toFixed` gets the `x ≥ 10^21` branch of
`Number.prototype.toFixed` that falls back to `Number::toString`
(mantissa rounding below the threshold is still not modelled). -/

/-- The magnitude at which the exact result of a double operation rounds to
`Infinity` under round-to-nearest: `2^1024 - 2^970`. -/
def jsOverflowQ : ℚ := 2 ^ 1024 - 2 ^ 970

/-- Clamp an exact result to the double range. -/
def chkD (q : ℚ) : JSNum :=
  if jsOverflowQ ≤ q then .inf true
  else if q ≤ -jsOverflowQ then .inf false
  else .fin q

/-- Clamp a parsed number to the double range (`Number` returns a double). -/
def dblClamp : JSNum → JSNum
  | .fin q => chkD q
  | x => x

/-- JS addition with overflow: `NaN` absorbing, `∞ + (-∞) = NaN`, an
infinity absorbs finite terms, finite sums clamped to the double range. -/
def JSNum.addD : JSNum → JSNum → JSNum
  | nan, _ => nan
  | _, nan => nan
  | inf b, inf c => if b = c then inf b else nan
  | inf b, fin _ => inf b
  | fin _, inf b => inf b
  | fin a, fin b => chkD (a + b)

/-- JS multiplication with overflow: as `JSNum.mul`, with finite products
clamped to the double range. -/
def JSNum.mulD : JSNum → JSNum → JSNum
  | nan, _ => nan
  | _, nan => nan
  | inf b, inf c => inf (b = c)
  | inf b, fin q => if q = 0 then nan else inf (b = decide (0 < q))
  | fin q, inf b => if q = 0 then nan else inf (b = decide (0 < q))
  | fin a, fin b => chkD (a * b)

/-- JS comparison `n > 0` (false on `NaN` and `-Infinity`). -/
def JSNum.gt0 : JSNum → Bool
  | nan => false
  | inf b => b
  | fin q => decide (0 < q)

/-- JS division with overflow. There is no signed zero in the model: a zero
divisor counts as `+0`, and finite-over-infinite collapses to `0`. -/
def JSNum.divD : JSNum → JSNum → JSNum
  | nan, _ => nan
  | _, nan => nan
  | inf _, inf _ => nan
  | inf b, fin q => if q = 0 then inf b else inf (b = decide (0 < q))
  | fin _, inf _ => fin 0
  | fin a, fin b =>
      if b = 0 then (if a = 0 then nan else inf (decide (0 < a)))
      else chkD (a / b)

/-- JS truthiness of a number: `0` and `NaN` are falsy, infinities truthy. -/
def jsTruthy : JSNum → Bool
  | .nan => false
  | .inf _ => true
  | .fin q => decide (q ≠ 0)

/-- Numeric form of a stored field (`typeof x === "number" ? x :
Number(x || 0)`), with the parse clamped to the double range. -/
def numericJSD (v : JSVal) : JSNum := dblClamp (numericJS v)

/-- The aggregates of the overflow-aware model. -/
structure TotalsD where
  totalUnits : JSNum
  avgPrice : JSNum
  totalAmount : JSNum
  deriving DecidableEq

/-- The `totals` memo in the overflow-aware model, mirroring lines 233-252
exactly as `totalsOf` does: per-row coercion with non-finite factors
zeroed, per-row products, folded sums, average guarded by
`totalUnits > 0` — but in double arithmetic. -/
def totalsOfD (l : List Purchase) : TotalsD :=
  let parsed := l.map (fun p =>
    let units := numericJSD p.units
    let price := numericJSD p.price
    let u := if units.isFinite then units else JSNum.fin 0
    let pr := if price.isFinite then price else JSNum.fin 0
    (u, pr, u.mulD pr))
  let totalUnits := parsed.foldl (fun s p => JSNum.addD s p.1) (.fin 0)
  let totalAmount := parsed.foldl (fun s p => JSNum.addD s p.2.2) (.fin 0)
  let avgPrice := if totalUnits.gt0 then totalAmount.divD totalUnits else .fin 0
  ⟨totalUnits, avgPrice, totalAmount⟩

/-- `Number::toString` of an integer at or above `10^21`: exponential
notation, trailing zeros of the significand dropped (`1e+21`,
`2e+200`). -/
def expNotation (n : Nat) : List Char :=
  let ds := natDecimal n
  let sig := (ds.reverse.dropWhile (fun c => c = '0')).reverse
  match sig with
  | [] => ['0']
  | d :: rest =>
      d :: (if rest.isEmpty then [] else '.' :: rest) ++ 'e' :: '+' :: natDecimal (ds.length - 1)

/-- `Number.prototype.toFixed(d)` in the overflow-aware model: `NaN` and
the infinities print as themselves, a finite magnitude at or above `10^21`
falls back to `Number::toString`, and smaller finite values use the
fixed-point form. -/
def toFixedD (d : Nat) (x : JSNum) : List Char :=
  match x with
  | .nan => ['N', 'a', 'N']
  | .inf true => infinityL
  | .inf false => '-' :: infinityL
  | .fin q =>
      if |q| < (10 : ℚ) ^ 21 then toFixedL d q
      else (if q < 0 then ['-'] else []) ++ expNotation (Int.floor |q|).toNat

/-- Summary panel in the overflow-aware model: `$` then
`totalAmount.toFixed(2)` when the aggregate is truthy, else `0.00`. -/
def displayTotalAmountD (x : JSNum) : String :=
  String.mk ('$' :: (if jsTruthy x then toFixedD 2 x else ['0', '.', '0', '0']))

/-- Summary panel in the overflow-aware model: `$` then
`avgPrice.toFixed(4)` when the aggregate is truthy, else `0.0000`. -/
def displayAvgPriceD (x : JSNum) : String :=
  String.mk ('$' ::
    (if jsTruthy x then toFixedD 4 x else ['0', '.', '0', '0', '0', '0']))

/-- A 201-digit typed input whose parse is the finite double `10^200`. -/
def bigInput : String := String.mk ('1' :: List.replicate 200 '0')

/-- A purchase whose typed `units` and `price` are finite doubles with an
overflowing product. -/
def bigPurchase : Purchase := ⟨"1", .str bigInput, .str bigInput⟩

/-! ## Character and list helper lemmas -/

theorem jsNumberL_eq (l : List Char) (p : Bool) (r : RawNum)
    (h : rawNumberL l = (p, r)) :
    jsNumberL l = if p then r.val else r.val.negJS := by
  simp [jsNumberL, h]

theorem pred_ne {p : Char → Bool} {c d : Char} (h : p c = true)
    (hd : p d = false) : c ≠ d := by
  intro e
  rw [e, hd] at h
  exact Bool.false_ne_true h

theorem jsWS_of_isDigitOrDot {c : Char} (h : isDigitOrDot c = true) :
    jsWS c = false := by
  rcases Bool.eq_false_or_eq_true (jsWS c) with hw | hw
  · exfalso
    have hws : c = ' ' ∨ c = '\t' ∨ c = '\x0d' ∨ c = '\n' := by
      have := hw
      simp only [jsWS, Char.isWhitespace, Bool.or_eq_true, decide_eq_true_eq] at this
      tauto
    rcases hws with e | e | e | e <;> (subst e; simp [isDigitOrDot, Char.isDigit] at h)
  · exact hw

theorem takeWhile_all {p : Char → Bool} {l : List Char}
    (h : ∀ c ∈ l, p c = true) : l.takeWhile p = l :=
  List.takeWhile_eq_self_iff.mpr h

theorem dropWhile_all {p : Char → Bool} {l : List Char}
    (h : ∀ c ∈ l, p c = true) : l.dropWhile p = [] :=
  List.dropWhile_eq_nil_iff.mpr h

theorem takeWhile_append_all {p : Char → Bool} :
    ∀ {a : List Char} (l : List Char), (∀ c ∈ a, p c = true) →
      (a ++ l).takeWhile p = a ++ l.takeWhile p := by
  intro a
  induction a with
  | nil => intro l _; rfl
  | cons c cs ih =>
      intro l h
      have hc : p c = true := h c (List.mem_cons_self c cs)
      rw [List.cons_append, List.takeWhile_cons, hc,
        ih l (fun x hx => h x (List.mem_cons_of_mem c hx))]
      rfl

theorem dropWhile_append_all {p : Char → Bool} :
    ∀ {a : List Char} (l : List Char), (∀ c ∈ a, p c = true) →
      (a ++ l).dropWhile p = l.dropWhile p := by
  intro a
  induction a with
  | nil => intro l _; rfl
  | cons c cs ih =>
      intro l h
      have hc : p c = true := h c (List.mem_cons_self c cs)
      rw [List.cons_append, List.dropWhile_cons, if_pos hc,
        ih l (fun x hx => h x (List.mem_cons_of_mem c hx))]

theorem jsTrimL_eq_self {l : List Char} (h : ∀ c ∈ l, jsWS c = false) :
    jsTrimL l = l := by
  have h1 : l.dropWhile jsWS = l := by
    cases l with
    | nil => rfl
    | cons c cs => simp [List.dropWhile, h c (List.mem_cons_self c cs)]
  have h2 : l.reverse.dropWhile jsWS = l.reverse := by
    cases hrev : l.reverse with
    | nil => rfl
    | cons c cs =>
        have hc : c ∈ l := by
          have : c ∈ l.reverse := by rw [hrev]; exact List.mem_cons_self c cs
          simpa using this
        simp [List.dropWhile, h c hc]
  simp [jsTrimL, h1, h2]

/-! ## Characterization of the sanitizer's output -/

theorem mem_stripL {c : Char} {v : List Char} (h : c ∈ stripL v) :
    isDigitOrDot c = true :=
  (List.mem_filter.mp h).2

theorem exists_dropWhile_dot {s : List Char} (h : '.' ∈ s) :
    ∃ b, s.dropWhile (fun c => c != '.') = '.' :: b := by
  induction s with
  | nil => cases h
  | cons c cs ih =>
      by_cases hc : c = '.'
      · subst hc
        exact ⟨cs, by rw [List.dropWhile_cons]; simp⟩
      · have hm : '.' ∈ cs := by
          rcases List.mem_cons.mp h with e | e
          · exact absurd e.symm hc
          · exact e
        rcases ih hm with ⟨b, hb⟩
        refine ⟨b, ?_⟩
        rw [List.dropWhile_cons, if_pos (by simp [hc]), hb]

theorem count_collapseDots (s : List Char) : (collapseDots s).count '.' ≤ 1 := by
  unfold collapseDots
  by_cases h : '.' ∈ s
  · rw [if_pos h]
    have h1 : (s.takeWhile (fun c => c != '.')).count '.' = 0 := by
      rw [List.count_eq_zero]
      intro hm
      have := List.mem_takeWhile_imp hm
      simp at this
    have h2 :
        (((s.dropWhile (fun c => c != '.')).tail.filter
          (fun c => c != '.')).count '.') = 0 := by
      rw [List.count_eq_zero]
      intro hm
      have := (List.mem_filter.mp hm).2
      simp at this
    rw [List.count_append, h1, List.count_cons, h2]
    simp
  · rw [if_neg h]
    have h0 : s.count '.' = 0 := List.count_eq_zero.mpr h
    omega

theorem mem_collapseDots {c : Char} {s : List Char} (h : c ∈ collapseDots s) :
    c ∈ s ∨ c = '.' := by
  unfold collapseDots at h
  by_cases hm : '.' ∈ s
  · rw [if_pos hm] at h
    rcases List.mem_append.mp h with h1 | h1
    · exact Or.inl ((List.takeWhile_sublist _).subset h1)
    · rcases List.mem_cons.mp h1 with e | e
      · exact Or.inr e
      · have h2 := (List.mem_filter.mp e).1
        have h3 : c ∈ s.dropWhile (fun c => c != '.') := List.mem_of_mem_tail h2
        exact Or.inl ((List.dropWhile_sublist _).subset h3)
  · rw [if_neg hm] at h
    exact Or.inl h

theorem collapseDots_eq_self {s : List Char} (h : s.count '.' ≤ 1) :
    collapseDots s = s := by
  unfold collapseDots
  by_cases hm : '.' ∈ s
  · rw [if_pos hm]
    rcases exists_dropWhile_dot hm with ⟨b, hb⟩
    have hsplit : s.takeWhile (fun c => c != '.') ++ '.' :: b = s := by
      rw [← hb]
      exact List.takeWhile_append_dropWhile _ _
    have hcount :
        (s.takeWhile (fun c => c != '.')).count '.' + (b.count '.' + 1) =
          s.count '.' := by
      conv_rhs => rw [← hsplit]
      rw [List.count_append, List.count_cons]
      simp
    have hb0 : b.count '.' = 0 := by omega
    have hfb : b.filter (fun c => c != '.') = b := by
      refine List.filter_eq_self.mpr ?_
      intro a ha
      have hane : a ≠ '.' := by
        intro e
        subst e
        exact absurd ha (List.count_eq_zero.mp hb0)
      simp [hane]
    rw [hb, List.tail_cons, hfb]
    exact hsplit
  · rw [if_neg hm]

theorem count_sanitize (v : List Char) :
    (sanitizeNumericInput v).count '.' ≤ 1 := by
  unfold sanitizeNumericInput prependZero
  by_cases h : (collapseDots (stripL v)).head? = some '.'
  · rw [if_pos h, List.count_cons]
    have := count_collapseDots (stripL v)
    simp
    omega
  · rw [if_neg h]
    exact count_collapseDots (stripL v)

theorem mem_sanitize {c : Char} {v : List Char}
    (h : c ∈ sanitizeNumericInput v) : isDigitOrDot c = true := by
  unfold sanitizeNumericInput prependZero at h
  by_cases h0 : (collapseDots (stripL v)).head? = some '.'
  · rw [if_pos h0] at h
    rcases List.mem_cons.mp h with e | e
    · subst e; decide
    · rcases mem_collapseDots e with h1 | h1
      · exact mem_stripL h1
      · subst h1; decide
  · rw [if_neg h0] at h
    rcases mem_collapseDots h with h1 | h1
    · exact mem_stripL h1
    · subst h1; decide

theorem head_sanitize {v : List Char} {c : Char} {t : List Char}
    (h : sanitizeNumericInput v = c :: t) : c.isDigit = true := by
  unfold sanitizeNumericInput prependZero at h
  by_cases h0 : (collapseDots (stripL v)).head? = some '.'
  · rw [if_pos h0] at h
    have hc : c = '0' := (List.cons.injEq _ _ _ _ ▸ h).1.symm
    subst hc; decide
  · rw [if_neg h0] at h
    have hc : c ∈ collapseDots (stripL v) := by
      rw [h]; exact List.mem_cons_self c t
    have hne : c ≠ '.' := by
      intro e
      apply h0
      rw [h, e]
      rfl
    have hdd : isDigitOrDot c = true := by
      rcases mem_collapseDots hc with h1 | h1
      · exact mem_stripL h1
      · exact absurd h1 hne
    have hdd2 : c.isDigit = true ∨ c = '.' := by
      simpa [isDigitOrDot] using hdd
    rcases hdd2 with hd | hd
    · exact hd
    · exact absurd hd hne

theorem cleanL_cases (v : List Char) :
    cleanL v = [] ∨ cleanL v = sanitizeNumericInput v := by
  unfold cleanL
  by_cases h : jsTrimL v = [] <;> simp [h]

theorem cleanL_idem (v : List Char) : cleanL (cleanL v) = cleanL v := by
  rcases cleanL_cases v with h | h
  · rw [h]; rfl
  · cases hse : cleanL v with
    | nil => rfl
    | cons c t =>
        have hsan : sanitizeNumericInput v = c :: t := h.symm.trans hse
        have hmem : ∀ x ∈ (c :: t), isDigitOrDot x = true := by
          intro x hx
          exact mem_sanitize (v := v) (by rw [hsan]; exact hx)
        have hws : ∀ x ∈ (c :: t), jsWS x = false := fun x hx =>
          jsWS_of_isDigitOrDot (hmem x hx)
        have htrim : jsTrimL (c :: t) = c :: t := jsTrimL_eq_self hws
        have hstrip : stripL (c :: t) = c :: t := List.filter_eq_self.mpr hmem
        have hcount : (c :: t).count '.' ≤ 1 := by
          rw [← hsan]
          exact count_sanitize v
        have hcoll : collapseDots (c :: t) = c :: t := collapseDots_eq_self hcount
        have hhead : c.isDigit = true := head_sanitize hsan
        have hcne : c ≠ '.' := pred_ne hhead (by decide)
        show cleanL (c :: t) = c :: t
        unfold cleanL
        rw [htrim, if_neg (List.cons_ne_nil c t)]
        unfold sanitizeNumericInput
        rw [hstrip, hcoll]
        unfold prependZero
        simp [hcne]

/-! ## A cleaned value always parses to a non-negative finite number -/

theorem jsNumberL_of_digits {c : Char} {t : List Char}
    (hc : c.isDigit = true)
    (hmem : ∀ x ∈ (c :: t), isDigitOrDot x = true)
    (hcount : (c :: t).count '.' ≤ 1) :
    ∃ q : ℚ, 0 ≤ q ∧ jsNumberL (c :: t) = JSNum.fin q := by
  set s : List Char := c :: t with hs
  have hws : ∀ x ∈ s, jsWS x = false := fun x hx => jsWS_of_isDigitOrDot (hmem x hx)
  have htrim : jsTrimL s = s := jsTrimL_eq_self hws
  have hcplus : c ≠ '+' := pred_ne hc (by decide)
  have hcminus : c ≠ '-' := pred_ne hc (by decide)
  have hcdot : c ≠ '.' := pred_ne hc (by decide)
  have hraw : rawNumberL s = (true, parseBodyR true s) := by
    unfold rawNumberL
    rw [htrim]
    have h1 : s ≠ [] := by rw [hs]; exact List.cons_ne_nil c t
    have h2 : s.head? = some c := by rw [hs]; rfl
    rw [if_neg h1, h2, if_neg (by simp [hcplus]), if_neg (by simp [hcminus])]
  have hninf : s ≠ infinityL := by
    intro e
    have e2 : c :: t = 'I' :: ['n', 'f', 'i', 'n', 'i', 't', 'y'] := hs ▸ e
    have e3 : c = 'I' := (List.cons.injEq _ _ _ _ ▸ e2).1
    subst e3
    exact absurd hc (by decide)
  have hrk : radixKind s = none := by
    rw [hs]
    cases t with
    | nil => rfl
    | cons c1 t2 =>
        have hd1 : isDigitOrDot c1 = true :=
          hmem c1 (List.mem_cons_of_mem c (List.mem_cons_self c1 t2))
        have hx : c1 ≠ 'x' := pred_ne hd1 (by decide)
        have hX : c1 ≠ 'X' := pred_ne hd1 (by decide)
        have ho : c1 ≠ 'o' := pred_ne hd1 (by decide)
        have hO : c1 ≠ 'O' := pred_ne hd1 (by decide)
        have hb : c1 ≠ 'b' := pred_ne hd1 (by decide)
        have hB : c1 ≠ 'B' := pred_ne hd1 (by decide)
        show (if c = '0' then
            if c1 = 'x' ∨ c1 = 'X' then some 16
            else if c1 = 'o' ∨ c1 = 'O' then some 8
            else if c1 = 'b' ∨ c1 = 'B' then some 2
            else none
          else none) = none
        by_cases h0 : c = '0'
        · rw [if_pos h0, if_neg (by simp [hx, hX]), if_neg (by simp [ho, hO]),
            if_neg (by simp [hb, hB])]
        · rw [if_neg h0]
  have hexp : ∀ x ∈ s, (!isExpChar x) = true := by
    intro x hx
    have hdd := hmem x hx
    have he : x ≠ 'e' := pred_ne hdd (by decide)
    have hE : x ≠ 'E' := pred_ne hdd (by decide)
    simp [isExpChar, he, hE]
  have htw : s.takeWhile (fun x => !isExpChar x) = s := takeWhile_all hexp
  have hdw : s.dropWhile (fun x => !isExpChar x) = [] := dropWhile_all hexp
  have hm : ∃ A B C, parseMantissaR s = some (A, B, C) := by
    by_cases hdot : '.' ∈ s
    · obtain ⟨b, hb⟩ := exists_dropWhile_dot hdot
      set a := s.takeWhile (fun x => x != '.') with ha
      have hsplit : a ++ '.' :: b = s := by
        rw [ha, ← hb]
        exact List.takeWhile_append_dropWhile _ _
      have hcount1 : a.count '.' + (b.count '.' + 1) = s.count '.' := by
        conv_rhs => rw [← hsplit]
        rw [List.count_append, List.count_cons]
        simp
      have hle : s.count '.' ≤ 1 := hcount
      have ha0 : a.count '.' = 0 := by omega
      have hb0 : b.count '.' = 0 := by omega
      have hadot : '.' ∉ a := List.count_eq_zero.mp ha0
      have hbdot : '.' ∉ b := List.count_eq_zero.mp hb0
      have hadig : ∀ x ∈ a, Char.isDigit x = true := by
        intro x hx
        have hxs : x ∈ s := by
          rw [← hsplit]
          exact List.mem_append.mpr (Or.inl hx)
        have hdd2 : x.isDigit = true ∨ x = '.' := by
          simpa [isDigitOrDot] using hmem x hxs
        rcases hdd2 with hgood | hbad
        · exact hgood
        · exact absurd (hbad ▸ hx) hadot
      have hbdig : ∀ x ∈ b, Char.isDigit x = true := by
        intro x hx
        have hxs : x ∈ s := by
          rw [← hsplit]
          exact List.mem_append.mpr (Or.inr (List.mem_cons_of_mem _ hx))
        have hdd2 : x.isDigit = true ∨ x = '.' := by
          simpa [isDigitOrDot] using hmem x hxs
        rcases hdd2 with hgood | hbad
        · exact hgood
        · exact absurd (hbad ▸ hx) hbdot
      have hane : a ≠ [] := by
        rw [ha, hs, List.takeWhile_cons, if_pos (by simp [hcdot])]
        exact List.cons_ne_nil _ _
      have htw2 : s.takeWhile Char.isDigit = a := by
        conv_lhs => rw [← hsplit]
        rw [takeWhile_append_all _ hadig, List.takeWhile_cons]
        simp
      have hdw2 : s.dropWhile Char.isDigit = '.' :: b := by
        conv_lhs => rw [← hsplit]
        rw [dropWhile_append_all _ hadig, List.dropWhile_cons]
        simp
      have hball : b.all Char.isDigit = true := List.all_eq_true.mpr hbdig
      have haempty : a.isEmpty = false := by
        cases hae : a with
        | nil => exact absurd hae hane
        | cons x xs => rfl
      refine ⟨decValue a, decValue b, b.length, ?_⟩
      simp only [parseMantissaR, htw2, hdw2]
      rw [if_pos (by simp [hball, haempty])]
    · have hdig : ∀ x ∈ s, Char.isDigit x = true := by
        intro x hx
        have hdd2 : x.isDigit = true ∨ x = '.' := by
          simpa [isDigitOrDot] using hmem x hx
        rcases hdd2 with hgood | hbad
        · exact hgood
        · exact absurd (hbad ▸ hx) hdot
      have htw2 : s.takeWhile Char.isDigit = s := takeWhile_all hdig
      have hdw2 : s.dropWhile Char.isDigit = [] := dropWhile_all hdig
      refine ⟨decValue s, 0, 0, ?_⟩
      simp only [parseMantissaR, htw2, hdw2]
      rw [if_neg (by rw [hs]; simp)]
  obtain ⟨A, B, C, hm⟩ := hm
  have hpd : parseDecR s = .dec A B C 0 := by
    simp only [parseDecR, htw, hdw, hm]
  have hpb : parseBodyR true s = .dec A B C 0 := by
    unfold parseBodyR
    rw [if_neg hninf]
    simp only [if_true, hrk]
    exact hpd
  refine ⟨((A : ℚ) + (B : ℚ) / (10 : ℚ) ^ C) * (10 : ℚ) ^ (0 : ℤ), ?_, ?_⟩
  · positivity
  · rw [jsNumberL_eq s true (.dec A B C 0) (by rw [hraw, hpb])]
    rfl

theorem coerceField_cleanL (v : List Char) :
    ∃ q : ℚ, 0 ≤ q ∧ coerceField (.str (String.mk (cleanL v))) = JSNum.fin q := by
  cases hse : cleanL v with
  | nil => exact ⟨0, le_refl 0, rfl⟩
  | cons c t =>
      have hsan : sanitizeNumericInput v = c :: t := by
        rcases cleanL_cases v with h | h
        · rw [h] at hse; cases hse
        · exact h.symm.trans hse
      have hmem : ∀ x ∈ (c :: t), isDigitOrDot x = true := by
        intro x hx
        exact mem_sanitize (v := v) (by rw [hsan]; exact hx)
      have hhead : c.isDigit = true := head_sanitize hsan
      have hcount : (c :: t).count '.' ≤ 1 := by
        rw [← hsan]
        exact count_sanitize v
      obtain ⟨q, hq0, hjs⟩ := jsNumberL_of_digits hhead hmem hcount
      have hws : ∀ x ∈ (c :: t), jsWS x = false := fun x hx =>
        jsWS_of_isDigitOrDot (hmem x hx)
      have htrim : jsTrimL (c :: t) = c :: t := jsTrimL_eq_self hws
      have hcf : coerceField (.str (String.mk (c :: t))) =
          (if jsTrimL (c :: t) = [] then JSNum.fin 0 else jsNumberL (c :: t)) := rfl
      exact ⟨q, hq0, by rw [hcf, if_neg (by rw [htrim]; exact List.cons_ne_nil c t), hjs]⟩

theorem refineOk_cleanL (v : List Char) :
    refineOk (coerceField (.str (String.mk (cleanL v)))) = true := by
  obtain ⟨q, hq0, he⟩ := coerceField_cleanL v
  rw [he]
  simp [refineOk, JSNum.isNaN, JSNum.ge0, hq0]

theorem refineOk_eq_ge0 (n : JSNum) : refineOk n = n.ge0 := by
  cases n <;> simp [refineOk, JSNum.isNaN, JSNum.ge0]

/-! ## Aggregator lemmas -/

theorem foldl_fst : ∀ (l : List (ℚ × ℚ × ℚ)) (a : ℚ),
    l.foldl (fun s p => s + p.1) a = a + (l.map (fun p => p.1)).sum := by
  intro l
  induction l with
  | nil => intro a; simp
  | cons x xs ih =>
      intro a
      simp only [List.foldl_cons, List.map_cons, List.sum_cons, ih]
      ring

theorem foldl_amount : ∀ (l : List (ℚ × ℚ × ℚ)) (a : ℚ),
    l.foldl (fun s p => s + p.2.2) a = a + (l.map (fun p => p.2.2)).sum := by
  intro l
  induction l with
  | nil => intro a; simp
  | cons x xs ih =>
      intro a
      simp only [List.foldl_cons, List.map_cons, List.sum_cons, ih]
      ring

theorem finiteOr0_mul (a b : JSNum) :
    finiteOr0 (a.mul b) = finiteOr0 a * finiteOr0 b := by
  cases a <;> cases b <;>
    simp [JSNum.mul, finiteOr0] <;> split_ifs <;> simp

theorem totalsOf_eq (l : List Purchase) :
    totalsOf l =
      ⟨specTotalUnits l,
        (if 0 < specTotalUnits l then specTotalAmount l / specTotalUnits l
         else 0),
        specTotalAmount l⟩ := by
  have hU :
      (l.map (fun p =>
        (finiteOr0 (numericJS p.units), finiteOr0 (numericJS p.price),
          finiteOr0 (numericJS p.units) * finiteOr0 (numericJS p.price)))).foldl
        (fun s p => s + p.1) 0 = specTotalUnits l := by
    rw [foldl_fst, List.map_map]
    simp only [specTotalUnits, zero_add]
    congr 1
  have hA :
      (l.map (fun p =>
        (finiteOr0 (numericJS p.units), finiteOr0 (numericJS p.price),
          finiteOr0 (numericJS p.units) * finiteOr0 (numericJS p.price)))).foldl
        (fun s p => s + p.2.2) 0 = specTotalAmount l := by
    rw [foldl_amount, List.map_map]
    simp only [specTotalAmount, Function.comp, zero_add]
    congr 1
    apply List.map_congr_left
    intro p _
    exact (finiteOr0_mul _ _).symm
  simp only [totalsOf]
  rw [hU, hA]

/-! ## toFixed output shape -/

theorem digitChar_isDigit {n : Nat} (h : n < 10) :
    (digitChar n).isDigit = true := by
  interval_cases n <;> decide

theorem mem_natDecimalGo :
    ∀ (fuel n : Nat) (c : Char), c ∈ natDecimalGo fuel n → c.isDigit = true := by
  intro fuel
  induction fuel with
  | zero => intro n c h; cases h
  | succ f ih =>
      intro n c h
      unfold natDecimalGo at h
      by_cases hn : n < 10
      · rw [if_pos hn] at h
        have hc : c = digitChar n := by simpa using h
        subst hc
        exact digitChar_isDigit hn
      · rw [if_neg hn] at h
        rcases List.mem_append.mp h with h1 | h1
        · exact ih _ c h1
        · have hc : c = digitChar (n % 10) := by simpa using h1
          subst hc
          exact digitChar_isDigit (Nat.mod_lt _ (by norm_num))

theorem mem_natDecimal {n : Nat} {c : Char} (h : c ∈ natDecimal n) :
    c.isDigit = true :=
  mem_natDecimalGo _ _ _ h

theorem fracDigits_length (d fp : Nat) : (fracDigits d fp).length = d := by
  simp [fracDigits]

theorem mem_fracDigits {d fp : Nat} {c : Char} (h : c ∈ fracDigits d fp) :
    c.isDigit = true := by
  simp only [fracDigits, List.mem_map, List.mem_reverse, List.mem_range] at h
  obtain ⟨i, _, rfl⟩ := h
  exact digitChar_isDigit (Nat.mod_lt _ (by norm_num))

theorem toFixedL_shape (d : Nat) (q : ℚ) :
    ∃ pre post : List Char, toFixedL d q = pre ++ '.' :: post ∧
      post.length = d ∧ (∀ c ∈ post, c.isDigit = true) ∧ '.' ∉ pre := by
  refine ⟨(if q < 0 then ['-'] else [])
      ++ natDecimal ((Int.floor (|q| * (10 : ℚ) ^ d + 1 / 2)).toNat / 10 ^ d),
    fracDigits d ((Int.floor (|q| * (10 : ℚ) ^ d + 1 / 2)).toNat % 10 ^ d),
    ?_, fracDigits_length _ _, fun c hc => mem_fracDigits hc, ?_⟩
  · unfold toFixedL
    rw [List.append_assoc]
  · intro hmem
    rcases List.mem_append.mp hmem with h1 | h1
    · by_cases hq : q < 0
      · rw [if_pos hq] at h1
        simp at h1
      · rw [if_neg hq] at h1
        cases h1
    · exact absurd (mem_natDecimal h1) (by decide)

/-! ## Store lemmas -/

theorem updatePurchase_of_not_mem {l : List Purchase} {id : String}
    (f : PartialPurchase) (h : id ∉ l.map Purchase.id) :
    updatePurchase id f l = l := by
  unfold updatePurchase
  have hpt : ∀ p ∈ l, (if p.id = id then spreadFields p f else p) = p := by
    intro p hp
    rw [if_neg ?_]
    intro e
    exact h (List.mem_map.mpr ⟨p, hp, e⟩)
  rw [List.map_congr_left hpt, List.map_id']

theorem removePurchase_of_not_mem {l : List Purchase} {id : String}
    (h : id ∉ l.map Purchase.id) : removePurchase id l = l := by
  unfold removePurchase
  apply List.filter_eq_self.mpr
  intro p hp
  have : p.id ≠ id := fun e => h (List.mem_map.mpr ⟨p, hp, e⟩)
  simp [this]

theorem ids_updatePurchase_of_none {l : List Purchase} {id : String}
    {f : PartialPurchase} (hf : f.id = none) :
    (updatePurchase id f l).map Purchase.id = l.map Purchase.id := by
  unfold updatePurchase
  rw [List.map_map]
  apply List.map_congr_left
  intro p _
  by_cases h : p.id = id <;> simp [Function.comp, h, spreadFields, hf]

theorem nodup_ids_applyOp {s : List Purchase} {op : Op}
    (hs : (s.map Purchase.id).Nodup) (hok : okOp s op = true) :
    ((applyOp s op).map Purchase.id).Nodup := by
  cases op with
  | add id =>
      have hfresh : id ∉ s.map Purchase.id := by
        simpa [okOp] using hok
      have hmap : (addPurchase id s).map Purchase.id = s.map Purchase.id ++ [id] := by
        simp [addPurchase]
      rw [applyOp, hmap]
      rw [List.nodup_append]
      exact ⟨hs, List.nodup_singleton id, List.disjoint_singleton.mpr hfresh⟩
  | update id f =>
      have hf : f.id = none := by
        simpa [okOp, Option.isNone_iff_eq_none] using hok
      rw [applyOp, ids_updatePurchase_of_none hf]
      exact hs
  | remove id =>
      rw [applyOp]
      exact hs.sublist ((List.filter_sublist s).map Purchase.id)
  | reset =>
      rw [applyOp]
      simp [resetPurchases]

theorem nodup_ids_runOps : ∀ (ops : List Op) (s : List Purchase),
    (s.map Purchase.id).Nodup → okOps s ops = true →
    ((runOps s ops).map Purchase.id).Nodup := by
  intro ops
  induction ops with
  | nil => intro s hs _; exact hs
  | cons op rest ih =>
      intro s hs hok
      have h1 : okOp s op = true ∧ okOps (applyOp s op) rest = true := by
        simpa [okOps, Bool.and_eq_true] using hok
      exact ih _ (nodup_ids_applyOp hs h1.1) h1.2

theorem okOps_take : ∀ (ops : List Op) (s : List Purchase) (k : Nat),
    okOps s ops = true → okOps s (ops.take k) = true := by
  intro ops
  induction ops with
  | nil => intro s k _; simp [List.take_nil]; rfl
  | cons op rest ih =>
      intro s k hok
      cases k with
      | zero => rfl
      | succ k2 =>
          have h1 : okOp s op = true ∧ okOps (applyOp s op) rest = true := by
            simpa [okOps, Bool.and_eq_true] using hok
          show okOps s (op :: rest.take k2) = true
          simp [okOps, h1.1, ih _ k2 h1.2]

/-! ## Sanitizer: split-join equals first-dot-kept one-pass -/

theorem dropExtraDots_true (l : List Char) :
    dropExtraDots l true = l.filter (fun c => c != '.') := by
  induction l with
  | nil => rfl
  | cons c cs ih =>
      by_cases hc : c = '.'
      · subst hc
        simp [dropExtraDots, List.filter_cons, ih]
      · simp [dropExtraDots, List.filter_cons, hc, ih]

theorem dropExtraDots_no_dot {l : List Char} (h : '.' ∉ l) :
    dropExtraDots l false = l := by
  induction l with
  | nil => rfl
  | cons c cs ih =>
      have hc : c ≠ '.' := fun e => h (e ▸ List.mem_cons_self c cs)
      have hcs : '.' ∉ cs := fun e => h (List.mem_cons_of_mem c e)
      simp [dropExtraDots, hc, ih hcs]

theorem collapseDots_eq_dropExtraDots (s : List Char) :
    collapseDots s = dropExtraDots s false := by
  induction s with
  | nil => rfl
  | cons c cs ih =>
      by_cases hc : c = '.'
      · subst hc
        unfold collapseDots dropExtraDots
        rw [if_pos (List.mem_cons_self _ _), List.takeWhile_cons,
          List.dropWhile_cons]
        simp [dropExtraDots_true]
      · by_cases hm : '.' ∈ cs
        · have hm2 : '.' ∈ c :: cs := List.mem_cons_of_mem c hm
          unfold collapseDots dropExtraDots
          rw [if_pos hm2, List.takeWhile_cons, List.dropWhile_cons]
          have hpc : (c != '.') = true := by simp [hc]
          rw [hpc]
          simp only [if_true]
          rw [if_neg hc]
          unfold collapseDots at ih
          rw [if_pos hm] at ih
          rw [← ih]
          rfl
        · have hm2 : '.' ∉ c :: cs := by
            intro e
            rcases List.mem_cons.mp e with e1 | e1
            · exact hc e1.symm
            · exact hm e1
          unfold collapseDots
          rw [if_neg hm2, dropExtraDots_no_dot hm2]

/-! ## Editor and display helper lemmas -/

theorem handleChange_errorUpdate (row : Purchase) (field : Field)
    (value : String) : (handleChange row field value).errorUpdate = none := by
  have hok : refineOk (coerceField (.str (cleanStr value))) = true :=
    refineOk_cleanL value.toList
  cases field with
  | units =>
      by_cases hp : refineOk (coerceField row.price) = true
      · simp [handleChange, rowSchemaIssues, hok, hp]
      · simp [handleChange, rowSchemaIssues, hok, hp, Field.name, List.find?,
          show ("price" : String) ≠ "units" from by decide]
  | price =>
      by_cases hp : refineOk (coerceField row.units) = true
      · simp [handleChange, rowSchemaIssues, hok, hp]
      · simp [handleChange, rowSchemaIssues, hok, hp, Field.name, List.find?,
          show ("units" : String) ≠ "price" from by decide]

theorem toFixedL_eval (d : Nat) (q : ℚ) (n : Nat) (hq : ¬ q < 0)
    (hn : Int.floor (|q| * (10 : ℚ) ^ d + 1 / 2) = (n : Int)) :
    toFixedL d q = natDecimal (n / 10 ^ d) ++ '.' :: fracDigits d (n % 10 ^ d) := by
  unfold toFixedL
  rw [hn, if_neg hq]
  simp

theorem displayTotalAmount_shape (q : ℚ) :
    ∃ pre post : List Char,
      displayTotalAmount q = String.mk ('$' :: (pre ++ '.' :: post)) ∧
      post.length = 2 ∧ (∀ c ∈ post, c.isDigit = true) ∧ '.' ∉ pre := by
  unfold displayTotalAmount
  by_cases h : q = 0
  · rw [if_pos h]
    exact ⟨['0'], ['0', '0'], rfl, rfl, by decide, by decide⟩
  · rw [if_neg h]
    obtain ⟨pre, post, he, hlen, hdig, hdot⟩ := toFixedL_shape 2 q
    exact ⟨pre, post, by rw [he], hlen, hdig, hdot⟩

theorem displayAvgPrice_shape (q : ℚ) :
    ∃ pre post : List Char,
      displayAvgPrice q = String.mk ('$' :: (pre ++ '.' :: post)) ∧
      post.length = 4 ∧ (∀ c ∈ post, c.isDigit = true) ∧ '.' ∉ pre := by
  unfold displayAvgPrice
  by_cases h : q = 0
  · rw [if_pos h]
    exact ⟨['0'], ['0', '0', '0', '0'], rfl, rfl, by decide, by decide⟩
  · rw [if_neg h]
    obtain ⟨pre, post, he, hlen, hdig, hdot⟩ := toFixedL_shape 4 q
    exact ⟨pre, post, by rw [he], hlen, hdig, hdot⟩

theorem totalsOf_example : totalsOf examplePurchases = ⟨15, 140 / 3, 700⟩ := by
  have hU : specTotalUnits examplePurchases = 15 := by
    simp [specTotalUnits, examplePurchases, numericJS, finiteOr0]
    norm_num
  have hA : specTotalAmount examplePurchases = 700 := by
    simp [specTotalAmount, examplePurchases, specRowAmount, numericJS,
      JSNum.mul, finiteOr0]
    norm_num
  rw [totalsOf_eq, hU, hA, if_pos (by norm_num)]
  norm_num [Totals.mk.injEq]

theorem displayAvgPrice_example : displayAvgPrice (140 / 3 : ℚ) = "$46.6667" := by
  have hfl : Int.floor (|(140 : ℚ) / 3| * (10 : ℚ) ^ (4 : Nat) + 1 / 2) =
      ((466667 : Nat) : Int) := by
    rw [show |(140 : ℚ) / 3| = 140 / 3 from by rw [abs_of_nonneg]; norm_num,
      Int.floor_eq_iff]
    constructor <;> norm_num
  have htf : toFixedL 4 ((140 : ℚ) / 3) = ['4', '6', '.', '6', '6', '6', '7'] := by
    rw [toFixedL_eval 4 _ 466667 (by norm_num) hfl]
    decide
  unfold displayAvgPrice
  rw [if_neg (by norm_num), htf]

theorem displayTotalAmount_example : displayTotalAmount (700 : ℚ) = "$700.00" := by
  have hfl : Int.floor (|(700 : ℚ)| * (10 : ℚ) ^ (2 : Nat) + 1 / 2) =
      ((70000 : Nat) : Int) := by
    rw [show |(700 : ℚ)| = 700 from by rw [abs_of_nonneg]; norm_num,
      Int.floor_eq_iff]
    constructor <;> norm_num
  have htf : toFixedL 2 ((700 : ℚ)) = ['7', '0', '0', '.', '0', '0'] := by
    rw [toFixedL_eval 2 _ 70000 (by norm_num) hfl]
    decide
  unfold displayTotalAmount
  rw [if_neg (by norm_num), htf]

/-! ## Overflow-aware panel lemmas -/

set_option maxRecDepth 4000 in
theorem numericJSD_bigInput : numericJSD (.str bigInput) = .fin ((10 : ℚ) ^ 200) := by
  have hraw : rawNumberL bigInput.toList = (true, .dec (10 ^ 200) 0 0 0) := by
    decide
  have hjs : jsNumber bigInput = .fin ((10 : ℚ) ^ 200) := by
    rw [jsNumber, jsNumberL_eq _ true (.dec (10 ^ 200) 0 0 0) hraw]
    show RawNum.val (.dec (10 ^ 200) 0 0 0) = JSNum.fin ((10 : ℚ) ^ 200)
    unfold RawNum.val
    norm_num
  have hne : bigInput ≠ "" := by decide
  have hnum : numericJS (.str bigInput) = .fin ((10 : ℚ) ^ 200) := by
    show (if bigInput = "" then JSNum.fin 0 else jsNumber bigInput) = _
    rw [if_neg hne, hjs]
  show dblClamp (numericJS (.str bigInput)) = _
  rw [hnum]
  show chkD ((10 : ℚ) ^ 200) = _
  unfold chkD
  rw [if_neg (by norm_num [jsOverflowQ]), if_neg (by norm_num [jsOverflowQ])]

theorem mulD_big :
    JSNum.mulD (.fin ((10 : ℚ) ^ 200)) (.fin ((10 : ℚ) ^ 200)) = .inf true := by
  show chkD ((10 : ℚ) ^ 200 * (10 : ℚ) ^ 200) = .inf true
  unfold chkD
  rw [if_pos (by norm_num [jsOverflowQ])]

theorem totalsOfD_big : (totalsOfD [bigPurchase]).totalAmount = .inf true := by
  have hu : bigPurchase.units = .str bigInput := rfl
  have hp : bigPurchase.price = .str bigInput := rfl
  simp only [totalsOfD, List.map_cons, List.map_nil, List.foldl_cons,
    List.foldl_nil, hu, hp, numericJSD_bigInput, JSNum.isFinite, if_true,
    mulD_big]
  rfl

theorem displayTotalAmountD_cases (x : JSNum) :
    (∃ r, displayTotalAmountD x = String.mk ('$' :: r)) ∧
    (x = .fin 0 ∨ x = .nan → displayTotalAmountD x = "$0.00") ∧
    (∀ q : ℚ, x = .fin q → |q| < (10 : ℚ) ^ 21 →
      ∃ pre post : List Char,
        displayTotalAmountD x = String.mk ('$' :: (pre ++ '.' :: post)) ∧
        post.length = 2 ∧ (∀ c ∈ post, c.isDigit = true) ∧ '.' ∉ pre) ∧
    (x = .inf true → displayTotalAmountD x = "$Infinity") := by
  refine ⟨⟨if jsTruthy x then toFixedD 2 x else ['0', '.', '0', '0'], rfl⟩,
    ?_, ?_, ?_⟩
  · rintro (rfl | rfl) <;> rfl
  · rintro q rfl hlt
    by_cases hq0 : q = 0
    · subst hq0
      exact ⟨['0'], ['0', '0'], rfl, rfl, by decide, by decide⟩
    · have ht : jsTruthy (JSNum.fin q) = true := by
        simp [jsTruthy, hq0]
      have hfix : toFixedD 2 (JSNum.fin q) = toFixedL 2 q := by
        show (if |q| < (10 : ℚ) ^ 21 then toFixedL 2 q
          else (if q < 0 then ['-'] else []) ++ expNotation (Int.floor |q|).toNat) =
            toFixedL 2 q
        rw [if_pos hlt]
      obtain ⟨pre, post, he, hlen, hdig, hdot⟩ := toFixedL_shape 2 q
      refine ⟨pre, post, ?_, hlen, hdig, hdot⟩
      unfold displayTotalAmountD
      rw [ht, if_pos rfl, hfix, he]
  · rintro rfl
    rfl

theorem displayAvgPriceD_cases (x : JSNum) :
    (∃ r, displayAvgPriceD x = String.mk ('$' :: r)) ∧
    (x = .fin 0 ∨ x = .nan → displayAvgPriceD x = "$0.0000") ∧
    (∀ q : ℚ, x = .fin q → |q| < (10 : ℚ) ^ 21 →
      ∃ pre post : List Char,
        displayAvgPriceD x = String.mk ('$' :: (pre ++ '.' :: post)) ∧
        post.length = 4 ∧ (∀ c ∈ post, c.isDigit = true) ∧ '.' ∉ pre) ∧
    (x = .inf true → displayAvgPriceD x = "$Infinity") := by
  refine ⟨⟨if jsTruthy x then toFixedD 4 x else ['0', '.', '0', '0', '0', '0'],
    rfl⟩, ?_, ?_, ?_⟩
  · rintro (rfl | rfl) <;> rfl
  · rintro q rfl hlt
    by_cases hq0 : q = 0
    · subst hq0
      exact ⟨['0'], ['0', '0', '0', '0'], rfl, rfl, by decide, by decide⟩
    · have ht : jsTruthy (JSNum.fin q) = true := by
        simp [jsTruthy, hq0]
      have hfix : toFixedD 4 (JSNum.fin q) = toFixedL 4 q := by
        show (if |q| < (10 : ℚ) ^ 21 then toFixedL 4 q
          else (if q < 0 then ['-'] else []) ++ expNotation (Int.floor |q|).toNat) =
            toFixedL 4 q
        rw [if_pos hlt]
      obtain ⟨pre, post, he, hlen, hdig, hdot⟩ := toFixedL_shape 4 q
      refine ⟨pre, post, ?_, hlen, hdig, hdot⟩
      unfold displayAvgPriceD
      rw [ht, if_pos rfl, hfix, he]
  · rintro rfl
    rfl

/-! ## Claim theorems -/

/-- C1: for every purchase list the aggregator computes `totalUnits` as the
sum of the numeric values of the units fields (non-finite treated as 0),
`totalAmount` as the sum of the per-row amounts (numeric units times numeric
price, empty string treated as 0, non-finite factors and products treated
as 0), and `avgPrice` as `totalAmount / totalUnits` when `totalUnits > 0`
and `0` otherwise; on `[{units:10, price:50}, {units:5, price:40}]` it
returns `totalUnits = 15`, `totalAmount = 700`, and `avgPrice` displayed
with 4 decimal places as `$46.6667` (`totalAmount` displayed `$700.00`). -/
theorem C1_aggregator_totals :
    (∀ l : List Purchase,
      (totalsOf l).totalUnits = specTotalUnits l ∧
      (totalsOf l).totalAmount = specTotalAmount l ∧
      (totalsOf l).avgPrice =
        (if 0 < specTotalUnits l then specTotalAmount l / specTotalUnits l
         else 0)) ∧
    (totalsOf examplePurchases).totalUnits = 15 ∧
    (totalsOf examplePurchases).totalAmount = 700 ∧
    displayAvgPrice (totalsOf examplePurchases).avgPrice = "$46.6667" ∧
    displayTotalAmount (totalsOf examplePurchases).totalAmount = "$700.00" := by
  refine ⟨?_, ?_, ?_, ?_, ?_⟩
  · intro l
    rw [totalsOf_eq]
    exact ⟨rfl, rfl, rfl⟩
  · rw [totalsOf_example]
  · rw [totalsOf_example]
  · rw [totalsOf_example]
    exact displayAvgPrice_example
  · rw [totalsOf_example]
    exact displayTotalAmount_example

/-- C2: for every raw input the cleaned value is the empty string when the
input trims to empty, and otherwise is obtained by stripping every
non-digit non-dot character, keeping only the first dot (dropping all
later dots), and prepending `0` when the result starts with a dot; and the
examples `"1.2.3" → "1.23"`, `".5" → "0.5"`, `"ab12c.3" → "12.3"`,
`"" → ""` hold. -/
theorem C2_sanitizer_algorithm :
    (∀ v : List Char,
      cleanL v =
        (if jsTrimL v = [] then []
         else prependZero (dropExtraDots (stripL v) false))) ∧
    cleanStr "1.2.3" = "1.23" ∧ cleanStr ".5" = "0.5" ∧
    cleanStr "ab12c.3" = "12.3" ∧ cleanStr "" = "" := by
  refine ⟨?_, by decide, by decide, by decide, by decide⟩
  intro v
  unfold cleanL sanitizeNumericInput
  rw [collapseDots_eq_dropExtraDots]

/-- C3 counterexample: the field value `"Infinity"` is accepted by the
validator (`!Number.isNaN(n) && n >= 0` holds for `+Infinity`) although its
coerced value is not a finite number, refuting the claimed
acceptance-iff-finite-and-non-negative. -/
theorem C3_validator_counterexample :
    refineOk (coerceField (.str "Infinity")) = true ∧
    (coerceField (.str "Infinity")).isFinite = false := by
  constructor <;> decide

/-- C3 amended: after the same coercion (empty string to 0, non-empty string
to its numeric value), the validator accepts exactly when the coerced value
passes the JS test `n >= 0` — which rejects `NaN` and negatives but accepts
`+Infinity`; `""` is valid, `"-1"` is invalid with the message
`Units must be a non-negative number`, `"3.5"` is valid. -/
theorem C3_validator_amended :
    (∀ v : JSVal,
      validateField unitsMessage v = none ↔ (coerceField v).ge0 = true) ∧
    validateField unitsMessage (.str "") = none ∧
    validateField unitsMessage (.str "-1") =
      some "Units must be a non-negative number" ∧
    validateField unitsMessage (.str "3.5") = none := by
  refine ⟨?_, by decide, ?_, ?_⟩
  · intro v
    unfold validateField
    rw [refineOk_eq_ge0]
    by_cases h : (coerceField v).ge0 = true
    · simp [h]
    · simp [h]
  · have h1 : coerceField (.str "-1") = jsNumberL ['-', '1'] := by
      show (if jsTrimL ['-', '1'] = [] then JSNum.fin 0
        else jsNumberL ['-', '1']) = _
      rw [if_neg (by decide)]
    have h2 : jsNumberL ['-', '1'] = .fin (-1) := by
      rw [jsNumberL_eq _ false (.dec 1 0 0 0) (by decide)]
      norm_num [RawNum.val, JSNum.negJS]
    unfold validateField
    rw [h1, h2]
    norm_num [refineOk, JSNum.isNaN, JSNum.ge0, unitsMessage]
  · have h1 : coerceField (.str "3.5") = jsNumberL ['3', '.', '5'] := by
      show (if jsTrimL ['3', '.', '5'] = [] then JSNum.fin 0
        else jsNumberL ['3', '.', '5']) = _
      rw [if_neg (by decide)]
    have h2 : jsNumberL ['3', '.', '5'] = .fin (7 / 2) := by
      rw [jsNumberL_eq _ true (.dec 3 5 1 0) (by decide)]
      norm_num [RawNum.val]
    unfold validateField
    rw [h1, h2]
    norm_num [refineOk, JSNum.isNaN, JSNum.ge0]

/-- C4 counterexample: starting from the initial store and running
`add "2"` then `update "2" {id: "1"}` — both legal store calls, since
`Partial<Purchase>` includes `id` — leaves two entries with id `"1"`, so
ids are not pairwise distinct for every add/update/remove sequence. -/
theorem C4_unique_ids_counterexample :
    ¬ ((runOps (initState "1")
        [Op.add "2", Op.update "2" ⟨some "1", none, none⟩]).map
          Purchase.id).Nodup := by
  decide

/-- C4 amended: for every sequence of add/update/remove/reset operations in
which each `add` uses an id not already present (the generator's freshness,
which `Date.now()`/`Math.random()` provide only probabilistically) and no
`update` supplies the `id` field (the editor only ever passes
`units`/`price`), the ids in the list are pairwise distinct at all times,
i.e. after every prefix of the sequence. -/
theorem C4_unique_ids_amended (ops : List Op) (id0 : String)
    (h : okOps (initState id0) ops = true) (k : Nat) :
    ((runOps (initState id0) (ops.take k)).map Purchase.id).Nodup := by
  apply nodup_ids_runOps
  · simp [initState]
  · exact okOps_take ops (initState id0) k h

/-- C4 witness: a concrete fresh run of one `add` keeps ids distinct. -/
theorem C4_unique_ids_witness :
    okOps (initState "1") [Op.add "2"] = true ∧
    ((runOps (initState "1") ([Op.add "2"].take 1)).map Purchase.id).Nodup :=
  ⟨by decide, C4_unique_ids_amended [Op.add "2"] "1" (by decide) 1⟩

/-- C5 counterexample: typing `"-"` cleans to `""`; the empty cleaned value
passes validation (it coerces to 0), and the editor sets no inline error —
contradicting the claim that the cleaned value of `"-"` is invalid and an
error message is set. -/
theorem C5_invalid_persist_counterexample :
    cleanStr "-" = "" ∧
    (handleChange ⟨"1", .str "", .str ""⟩ .units "-").errorUpdate = none ∧
    rowSchemaIssues (.str (cleanStr "-")) (.str "") = [] := by
  refine ⟨by decide, by decide, by decide⟩

/-- C5 amended: on every keystroke the editor persists the cleaned value
verbatim to the edited field of the store (for `"-"` that value is `""`),
and — because every cleaned value passes validation — the inline error for
the edited field is always cleared, never set. -/
theorem C5_invalid_persist_amended (row : Purchase) (field : Field)
    (value : String) :
    (handleChange row field value).storeFields =
      fieldAssign field (.str (cleanStr value)) ∧
    (handleChange row field value).errorUpdate = none := by
  constructor
  · show fieldAssign field
        (if cleanStr value = "" then JSVal.str "" else JSVal.str (cleanStr value)) =
      fieldAssign field (.str (cleanStr value))
    congr 1
    by_cases h : cleanStr value = ""
    · rw [if_pos h, h]
    · rw [if_neg h]
  · exact handleChange_errorUpdate row field value

/-- C6 counterexample: one row whose typed 201-digit `units` and `price`
parse to the finite double `10^200`; both factors pass the
`Number.isFinite` checks, yet the per-row product overflows to `Infinity`,
the non-finite `totalAmount` aggregate is truthy, and `toFixed(2)` prints
`Infinity` — the panel shows `$Infinity`, not `$0.00` and not a value with
two decimal places. -/
theorem C6_summary_display_counterexample :
    (totalsOfD [bigPurchase]).totalAmount = .inf true ∧
    displayTotalAmountD (totalsOfD [bigPurchase]).totalAmount = "$Infinity" ∧
    ("$Infinity" : String) ≠ "$0.00" := by
  refine ⟨totalsOfD_big, ?_, by decide⟩
  rw [totalsOfD_big]
  rfl

/-- C6 amended: every summary-panel display is `$`-prefixed; a zero or NaN
aggregate displays `$0.00` / `$0.0000`; a finite aggregate whose magnitude
lies below the `toFixed` fallback threshold `10^21` is displayed with
exactly 2 (`totalAmount`) resp. 4 (`avgPrice`) decimal places after a
single decimal point; an aggregate that overflowed to `+Infinity` displays
`$Infinity` instead. -/
theorem C6_summary_display_amended (l : List Purchase) :
    (∃ r, displayTotalAmountD (totalsOfD l).totalAmount =
      String.mk ('$' :: r)) ∧
    (∃ r, displayAvgPriceD (totalsOfD l).avgPrice = String.mk ('$' :: r)) ∧
    ((totalsOfD l).totalAmount = .fin 0 ∨ (totalsOfD l).totalAmount = .nan →
      displayTotalAmountD (totalsOfD l).totalAmount = "$0.00") ∧
    ((totalsOfD l).avgPrice = .fin 0 ∨ (totalsOfD l).avgPrice = .nan →
      displayAvgPriceD (totalsOfD l).avgPrice = "$0.0000") ∧
    (∀ q : ℚ, (totalsOfD l).totalAmount = .fin q → |q| < (10 : ℚ) ^ 21 →
      ∃ pre post : List Char,
        displayTotalAmountD (totalsOfD l).totalAmount =
          String.mk ('$' :: (pre ++ '.' :: post)) ∧
        post.length = 2 ∧ (∀ c ∈ post, c.isDigit = true) ∧ '.' ∉ pre) ∧
    (∀ q : ℚ, (totalsOfD l).avgPrice = .fin q → |q| < (10 : ℚ) ^ 21 →
      ∃ pre post : List Char,
        displayAvgPriceD (totalsOfD l).avgPrice =
          String.mk ('$' :: (pre ++ '.' :: post)) ∧
        post.length = 4 ∧ (∀ c ∈ post, c.isDigit = true) ∧ '.' ∉ pre) ∧
    ((totalsOfD l).totalAmount = .inf true →
      displayTotalAmountD (totalsOfD l).totalAmount = "$Infinity") := by
  obtain ⟨hA1, hA2, hA3, hA4⟩ := displayTotalAmountD_cases (totalsOfD l).totalAmount
  obtain ⟨hP1, hP2, hP3, _⟩ := displayAvgPriceD_cases (totalsOfD l).avgPrice
  exact ⟨hA1, hP1, hA2, hP2, hA3, hP3, hA4⟩

/-- C6 witness: the empty list has zero aggregates and displays `$0.00` and
`$0.0000`. -/
theorem C6_summary_display_amended_witness :
    (totalsOfD []).totalAmount = .fin 0 ∧ (totalsOfD []).avgPrice = .fin 0 ∧
    displayTotalAmountD (totalsOfD []).totalAmount = "$0.00" ∧
    displayAvgPriceD (totalsOfD []).avgPrice = "$0.0000" := by
  have h1 : (totalsOfD []).totalAmount = .fin 0 := rfl
  have h2 : (totalsOfD []).avgPrice = .fin 0 := rfl
  exact ⟨h1, h2, (C6_summary_display_amended []).2.2.1 (Or.inl h1),
    (C6_summary_display_amended []).2.2.2.1 (Or.inl h2)⟩

/-- C7: `update` and `remove` with an id absent from the list are no-ops —
the list is unchanged element for element — and in general `update` acts in
place (same length, entry `i` of the result is a function of entry `i` of
the input) and `remove` yields a sublist, so neither reorders entries. -/
theorem C7_noop_absent_id (l : List Purchase) (id : String)
    (f : PartialPurchase) (h : id ∉ l.map Purchase.id) :
    updatePurchase id f l = l ∧ removePurchase id l = l ∧
    (∀ (l2 : List Purchase) (id2 : String) (f2 : PartialPurchase),
      (updatePurchase id2 f2 l2).length = l2.length ∧
      ∀ (i : Nat) (hi : i < l2.length)
        (hi2 : i < (updatePurchase id2 f2 l2).length),
        (updatePurchase id2 f2 l2)[i] =
          (if l2[i].id = id2 then spreadFields l2[i] f2 else l2[i])) ∧
    (∀ (l2 : List Purchase) (id2 : String),
      List.Sublist (removePurchase id2 l2) l2) := by
  refine ⟨updatePurchase_of_not_mem f h, removePurchase_of_not_mem h, ?_, ?_⟩
  · intro l2 id2 f2
    constructor
    · simp [updatePurchase]
    · intro i hi hi2
      simp [updatePurchase]
  · intro l2 id2
    exact List.filter_sublist l2

/-- C7 witness: updating an absent id on a one-entry list changes nothing. -/
theorem C7_noop_absent_id_witness :
    ("z" ∉ ([⟨"a", JSVal.str "", JSVal.str ""⟩] : List Purchase).map
      Purchase.id) ∧
    updatePurchase "z" ⟨none, some (.str "5"), none⟩
      [⟨"a", .str "", .str ""⟩] = [⟨"a", .str "", .str ""⟩] := by
  have hm : "z" ∉ ([⟨"a", JSVal.str "", JSVal.str ""⟩] : List Purchase).map
      Purchase.id := by decide
  exact ⟨hm, (C7_noop_absent_id _ "z" ⟨none, some (.str "5"), none⟩ hm).1⟩

/-- C8 counterexample: `updatePurchase` with a `Partial<Purchase>` that
provides `id` overwrites the entry's id — `update("a", {id: "b"})` turns
the entry `"a"` into `"b"` — refuting that update never changes any
entry's id. -/
theorem C8_update_frame_counterexample :
    (updatePurchase "a" ⟨some "b", none, none⟩
      [⟨"a", .str "", .str ""⟩]).map Purchase.id = ["b"] ∧
    ("b" : String) ≠ "a" := by
  constructor <;> decide

/-- C8 amended: when the list contains the target id (at position `k`, ids
pairwise distinct), `update(id, partialFields)` keeps the length, replaces
exactly the provided fields of the matching entry in place (spread keeps
each unprovided field), leaves every other entry unchanged, and preserves
every entry's id whenever `partialFields` does not provide `id` — the
editor's calls never do; a provided `id` is overwritten (see the
counterexample). -/
theorem C8_update_frame_amended (l : List Purchase) (id : String)
    (f : PartialPurchase) (k : Nat) (hk : k < l.length)
    (hk2 : k < (updatePurchase id f l).length)
    (hmatch : l[k].id = id) (huniq : (l.map Purchase.id).Nodup) :
    (updatePurchase id f l).length = l.length ∧
    (updatePurchase id f l)[k] = spreadFields l[k] f ∧
    (∀ (j : Nat) (hj : j < l.length)
      (hj2 : j < (updatePurchase id f l).length),
      j ≠ k → (updatePurchase id f l)[j] = l[j]) ∧
    (f.id = none →
      (updatePurchase id f l).map Purchase.id = l.map Purchase.id) := by
  refine ⟨by simp [updatePurchase], ?_, ?_,
    fun hf => ids_updatePurchase_of_none hf⟩
  · simp [updatePurchase, hmatch]
  · intro j hj hj2 hne
    have hne2 : l[j].id ≠ id := by
      intro e
      apply hne
      have hj3 : j < (l.map Purchase.id).length := by simpa using hj
      have hk3 : k < (l.map Purchase.id).length := by simpa using hk
      have he : (l.map Purchase.id)[j] = (l.map Purchase.id)[k] := by
        rw [List.getElem_map, List.getElem_map]
        exact e.trans hmatch.symm
      exact (List.Nodup.getElem_inj_iff huniq).mp he
    simp [updatePurchase, hne2]

/-- C8 witness: a units-only update of entry `"b"` in a two-entry list. -/
theorem C8_update_frame_witness :
    (([⟨"a", JSVal.str "", JSVal.str ""⟩, ⟨"b", JSVal.str "", JSVal.str ""⟩] :
      List Purchase).map Purchase.id).Nodup ∧
    (updatePurchase "b" ⟨none, some (.str "5"), none⟩
      [⟨"a", .str "", .str ""⟩, ⟨"b", .str "", .str ""⟩]).length = 2 := by
  have hn : (([⟨"a", JSVal.str "", JSVal.str ""⟩,
      ⟨"b", JSVal.str "", JSVal.str ""⟩] :
      List Purchase).map Purchase.id).Nodup := by decide
  refine ⟨hn, ?_⟩
  exact (C8_update_frame_amended
    [⟨"a", .str "", .str ""⟩, ⟨"b", .str "", .str ""⟩] "b"
    ⟨none, some (.str "5"), none⟩ 1 (by decide) (by decide)
    (by decide) hn).1

/-- C9: the sanitizer, with its empty-after-trim pass-through, is
idempotent: applying it to its own output returns the output unchanged,
both on character lists and on strings. -/
theorem C9_sanitizer_idempotent :
    (∀ v : List Char, cleanL (cleanL v) = cleanL v) ∧
    (∀ s : String, cleanStr (cleanStr s) = cleanStr s) := by
  refine ⟨cleanL_idem, ?_⟩
  intro s
  exact congrArg String.mk (cleanL_idem s.toList)

/-- C10: the cleaned value of every raw keystroke coerces to a non-negative
finite number, so the row-schema check of the edited field always succeeds
and the editor's error-setting branch is unreachable: the inline error of
the edited field is always cleared, for every row state and field. -/
theorem C10_validation_always_succeeds (value : String) :
    (∃ q : ℚ, 0 ≤ q ∧ coerceField (.str (cleanStr value)) = JSNum.fin q) ∧
    refineOk (coerceField (.str (cleanStr value))) = true ∧
    (∀ (row : Purchase) (field : Field),
      (handleChange row field value).errorUpdate = none) :=
  ⟨coerceField_cleanL value.toList, refineOk_cleanL value.toList,
    fun row field => handleChange_errorUpdate row field value⟩

end Dca

